import Mathlib

/-!
# Verification of the protobom `NodeList` graph algebra

Shallow embedding of `pkg/sbom/nodelist.go`: the `NodeList` container and its
operations (`cleanEdges`, `Add`, `Union`, `Intersect`, `RemoveNodes`,
`RelateNodeListAtID`, `GetNodesByPurlType`, `Equal`, …), together with proofs
of the specified properties.

Go maps are embedded as lists with deterministic first/last-occurrence
conventions: a Go map built by iterating a slice maps each key to the *last*
value stored under it, and Go's random map-iteration order is determinized to
first-insertion order.  All verified properties are stated at the level of
sets or multisets, so they are insensitive to this determinization.

The `Node` and `Edge` helper methods (`Augment`, `Update`, `Copy`,
`PointsTo`, `flatString`, `Purl`) live in files of the repository that are
not part of the analyzed sources; they are modelled from the spec where
noted.  Deep copies (`Copy`, `copyEdgeList`) are the identity in this value
semantics.
-/

/-- An identifier pair attached to a node, used by `GetNodesByIdentifier`
(fields `Type`/`Value` in the source; `Type` is a Lean keyword, hence
lowercased). -/
structure Identifier where
  type : String
  value : String
deriving DecidableEq, Repr

/-- Modelled from the spec: a graph vertex, "opaque to the core except for an
id, name, identifier list, a package-url accessor, and two merge operations".
The node's remaining fields are irrelevant to the core algorithms and are
omitted (`node.go` is not among the analyzed sources). -/
structure Node where
  Id : String
  Name : String
  Identifiers : List Identifier
deriving DecidableEq, Repr

/-- Modelled from the spec: the enumerated edge relationship type
(a protobuf enum in the repository, not among the analyzed sources).
A representative subset of constructors suffices; the enum's string names
contain no `+` character, so the source's `From+"+++"+Type.String()` edge
key is injective in the pair `(From, Type)` and is embedded as that pair. -/
inductive Edge_Type where
  | UNKNOWN
  | amends
  | ancestor
  | contains
  | dependsOn
  | describes
deriving DecidableEq, Repr

/-- A directed typed edge: field `Type` of the source is lowercased (Lean
keyword); `From` and `To` keep their source names. -/
structure Edge where
  type : Edge_Type
  From : String
  To : List String
deriving DecidableEq, Repr

/-- The graph container of `nodelist.go`. -/
structure NodeList where
  Nodes : List Node
  Edges : List Edge
  RootElements : List String
deriving DecidableEq, Repr

/-- Modelled from the spec: gap-fill merge — "incoming fields fill only unset
receiver fields" (`Augment` in the source, not among the analyzed sources).
A string field is unset when empty, a list field when nil/empty. -/
def Node.Augment (n other : Node) : Node :=
  { Id := n.Id
    Name := if n.Name = "" then other.Name else n.Name
    Identifiers := if n.Identifiers = [] then other.Identifiers else n.Identifiers }

/-- Modelled from the spec: overlay merge — "incoming fields replace the
receiver's" (`Update` in the source, not among the analyzed sources).  A set
incoming field replaces the receiver's; an unset incoming field leaves it. -/
def Node.Update (n other : Node) : Node :=
  { Id := n.Id
    Name := if other.Name = "" then n.Name else other.Name
    Identifiers := if other.Identifiers = [] then n.Identifiers else other.Identifiers }

/-- Modelled from the spec: the node's package-url accessor (`Purl` in the
source, not among the analyzed sources): the value of the node's first
identifier of type "purl", or the empty string. -/
def Node.Purl (n : Node) : String :=
  match n.Identifiers.find? (fun i => i.type == "purl") with
  | some i => i.value
  | none => ""

/-- Modelled from the spec: the edge's destination-membership test
(`PointsTo` in the source, not among the analyzed sources). -/
def Edge.PointsTo (e : Edge) (id : String) : Bool :=
  e.To.contains id

/-- The ids of the nodes of a list, i.e. the key set of the source's
`indexNodes` (`nodeIndex`). -/
def nodeIds (nl : NodeList) : List String :=
  nl.Nodes.map Node.Id

/-- The `(From, Type)` keys of a list of edges, i.e. the key set of the
source's `indexEdges` (`edgeIndex`). -/
def edgeKeys (es : List Edge) : List (String × Edge_Type) :=
  es.map (fun e => (e.From, e.type))

/-- Insert a destination id if not already present (the source accumulates
destinations in the set `newTos[edgeKey]`; first-insertion order). -/
def addTo (tos : List String) (d : String) : List String :=
  if d ∈ tos then tos else tos ++ [d]

/-- Merge a sanitized edge `(f, t, tos)` into the accumulator of `cleanEdges`:
if an edge with key `(f, t)` is already present (the source's `seenCache`),
its destination set absorbs `tos`; otherwise a fresh edge is appended. -/
def mergeEdge : List Edge → String → Edge_Type → List String → List Edge
  | [], f, t, tos => [⟨t, f, tos.foldl addTo []⟩]
  | e :: rest, f, t, tos =>
    if e.From = f ∧ e.type = t then
      ⟨e.type, e.From, tos.foldl addTo e.To⟩ :: rest
    else
      e :: mergeEdge rest f t tos

/-- One iteration of the edge loop of `cleanEdges`: an edge whose `From` is
absent from the node index is discarded; otherwise its destinations are
filtered to existing nodes and merged under the edge's key. -/
def cleanStep (ids : List String) (acc : List Edge) (e : Edge) : List Edge :=
  if e.From ∈ ids then
    mergeEdge acc e.From e.type (e.To.filter (fun d => ids.contains d))
  else
    acc

/-- Embedding of `cleanEdges`: removes edges with a dangling origin, drops
dangling destinations, and collapses edges sharing a `(From, Type)` key into
one edge holding the deduplicated union of their destinations.  (The source
emits the result in Go-map iteration order; determinized here to
first-occurrence order.) -/
def NodeList.cleanEdges (nl : NodeList) : NodeList :=
  { nl with Edges := nl.Edges.foldl (cleanStep (nodeIds nl)) [] }

/-- Embedding of `AddEdge`: plain append, no sanitation. -/
def NodeList.AddEdge (nl : NodeList) (e : Edge) : NodeList :=
  { nl with Edges := nl.Edges ++ [e] }

/-- Embedding of `AddNode`: plain append, no sanitation. -/
def NodeList.AddNode (nl : NodeList) (n : Node) : NodeList :=
  { nl with Nodes := nl.Nodes ++ [n] }

/-- Apply `f` to the last node carrying `id` (the source's `indexNodes` map
is built last-value-wins, so `existingNodes[id]` points at the last node with
that id). -/
def updateLastById : List Node → String → (Node → Node) → List Node
  | [], _, _ => []
  | n :: rest, id, f =>
    if rest.any (fun m => m.Id = id) then
      n :: updateLastById rest id f
    else if n.Id = id then
      f n :: rest
    else
      n :: rest

/-- One iteration of the node loop of `Add`.  The source fetches
`n, ok := existingNodes[id]` and then calls `existingNodes[id].Augment(n)`,
i.e. it augments the receiver's node *with itself* (not with `nl2`'s node);
the membership test is against the index built once from the receiver. -/
def addNodesStep (origIds : List String) (nodes : List Node) (n2 : Node) : List Node :=
  if n2.Id ∈ origIds then
    updateLastById nodes n2.Id (fun n => n.Augment n)
  else
    nodes ++ [n2]

/-- Append `tos` (without deduplication) to the first edge keyed `(f, t)`:
the source's `existingEdges[From][Type][0].To = append(..., nl2Edge.To...)`,
where `[0]` is the first edge with that key in `nl.Edges` order. -/
def appendToFirst : List Edge → String → Edge_Type → List String → List Edge
  | [], _, _, _ => []
  | e :: rest, f, t, tos =>
    if e.From = f ∧ e.type = t then
      ⟨e.type, e.From, e.To ++ tos⟩ :: rest
    else
      e :: appendToFirst rest f t tos

/-- One iteration of the edge loop of `Add`: membership is tested against the
`indexEdges` snapshot of the receiver (`origKeys`); a matching key extends the
first original edge, an unmatched edge is appended whole. -/
def addEdgesStep (origKeys : List (String × Edge_Type)) (edges : List Edge) (e2 : Edge) :
    List Edge :=
  if (e2.From, e2.type) ∈ origKeys then
    appendToFirst edges e2.From e2.type e2.To
  else
    edges ++ [e2]

/-- Embedding of `Add`: merges `nl2` into `nl` in place (returned here as a
value).  Node phase against the `indexNodes` snapshot, edge phase against the
`indexEdges` snapshot, root phase against the `indexRootElements` snapshot,
then `cleanEdges`. -/
def NodeList.Add (nl nl2 : NodeList) : NodeList :=
  let nodes := nl2.Nodes.foldl (addNodesStep (nodeIds nl)) nl.Nodes
  let edges := nl2.Edges.foldl (addEdgesStep (edgeKeys nl.Edges)) nl.Edges
  let roots := nl.RootElements ++ nl2.RootElements.filter (fun id => !(nl.RootElements.contains id))
  NodeList.cleanEdges ⟨nodes, edges, roots⟩

/-- Embedding of `RemoveNodes`: drop the listed ids, keep order, sanitize. -/
def NodeList.RemoveNodes (nl : NodeList) (ids : List String) : NodeList :=
  NodeList.cleanEdges { nl with Nodes := nl.Nodes.filter (fun n => !(ids.contains n.Id)) }

/-- Embedding of `GetEdgeByType`: first edge from `fromElement` of type `t`. -/
def NodeList.GetEdgeByType (nl : NodeList) (fromElement : String) (t : Edge_Type) : Option Edge :=
  nl.Edges.find? (fun e => e.From == fromElement && e.type == t)

/-- Keep only the last node carrying each id, in order of last occurrence:
the key-value pairs of the source's `indexNodes` map (determinized iteration
order for `for id, node := range ni1`). -/
def lastPerId : List Node → List Node
  | [] => []
  | n :: rest =>
    if rest.any (fun m => m.Id = n.Id) then lastPerId rest else n :: lastPerId rest

/-- The last node of `nodes` carrying `id`, defaulting to `d` (the source's
`ni2[id]`; callers only use it under a membership guard). -/
def lastNodeById (nodes : List Node) (id : String) (d : Node) : Node :=
  ((nodes.filter (fun n => n.Id == id)).getLast?).getD d

/-- Widen the first edge keyed `(f, t)` with `tos`, deduplicating against a
snapshot of the edge's destinations: the source's `Intersect` builds
`invDict` from `existingEdge.To` once and then appends every element of
`e.To` absent from it (so duplicates inside `tos` are all appended). -/
def widenFirstSnap : List Edge → String → Edge_Type → List String → List Edge
  | [], _, _, _ => []
  | e :: rest, f, t, tos =>
    if e.From = f ∧ e.type = t then
      ⟨e.type, e.From, e.To ++ tos.filter (fun d => !(e.To.contains d))⟩ :: rest
    else
      e :: widenFirstSnap rest f t tos

/-- One iteration of the edge loop of `Intersect`: `GetEdgeByType` on the
result under construction; a miss appends a copy of `nl2`'s edge, a hit
widens it (snapshot deduplication). -/
def intersectEdgeStep (edges : List Edge) (e2 : Edge) : List Edge :=
  if (e2.From, e2.type) ∈ edgeKeys edges then
    widenFirstSnap edges e2.From e2.type e2.To
  else
    edges ++ [e2]

/-- One iteration of the node loop of `Intersect`, carrying the nodes and
root elements under construction. -/
def intersectNodeStep (nl nl2 : NodeList) (acc : List Node × List String) (node : Node) :
    List Node × List String :=
  if node.Id ∈ nodeIds nl2 then
    let newnode := node.Update (lastNodeById nl2.Nodes node.Id node)
    ( acc.1 ++ [newnode],
      if nl.RootElements.contains node.Id || nl2.RootElements.contains node.Id then
        acc.2 ++ [node.Id]
      else acc.2 )
  else
    acc

/-- Embedding of `Intersect`: nodes common to both inputs, overlay-merged;
edges start as a copy of the receiver's, then `nl2`'s edges are appended or
widened; trailing `cleanEdges`. -/
def NodeList.Intersect (nl nl2 : NodeList) : NodeList :=
  let ns := (lastPerId nl.Nodes).foldl (intersectNodeStep nl nl2) ([], [])
  let edges := nl2.Edges.foldl intersectEdgeStep nl.Edges
  NodeList.cleanEdges ⟨ns.1, edges, ns.2⟩

/-- Widen the first edge keyed `(f, t)` with `tos`, deduplicating against the
growing destination list: the source's `Union` tests `existingEdge.PointsTo(to)`
before each single append, so duplicates inside `tos` collapse. -/
def widenFirstIncr : List Edge → String → Edge_Type → List String → List Edge
  | [], _, _, _ => []
  | e :: rest, f, t, tos =>
    if e.From = f ∧ e.type = t then
      ⟨e.type, e.From, tos.foldl addTo e.To⟩ :: rest
    else
      e :: widenFirstIncr rest f t tos

/-- One iteration of the node loop of `Union`: membership against the index
built once over the copied receiver nodes; a hit overlays the last node with
that id, a miss appends `nl2`'s node. -/
def unionNodesStep (origIds : List String) (nodes : List Node) (n2 : Node) : List Node :=
  if n2.Id ∈ origIds then
    updateLastById nodes n2.Id (fun n => n.Update n2)
  else
    nodes ++ [n2]

/-- One iteration of the edge loop of `Union`: `GetEdgeByType` on the result
under construction; a miss appends a copy, a hit widens incrementally. -/
def unionEdgeStep (edges : List Edge) (e2 : Edge) : List Edge :=
  if (e2.From, e2.type) ∈ edgeKeys edges then
    widenFirstIncr edges e2.From e2.type e2.To
  else
    edges ++ [e2]

/-- Embedding of `Union`: copies of the receiver's nodes/edges/roots, nodes
of `nl2` overlaid or appended, edges of `nl2` appended or widened,
`cleanEdges`, then `nl2`'s root ids appended when absent from the
`indexRootElements` snapshot. -/
def NodeList.Union (nl nl2 : NodeList) : NodeList :=
  let nodes := nl2.Nodes.foldl (unionNodesStep (nodeIds nl)) nl.Nodes
  let edges := nl2.Edges.foldl unionEdgeStep nl.Edges
  let cleaned := NodeList.cleanEdges ⟨nodes, edges, nl.RootElements⟩
  { cleaned with
    RootElements :=
      cleaned.RootElements ++
        nl2.RootElements.filter (fun id => !(nl.RootElements.contains id)) }

/-- Embedding of `GetNodesByName`. -/
def NodeList.GetNodesByName (nl : NodeList) (name : String) : List Node :=
  nl.Nodes.filter (fun n => n.Name == name)

/-- Embedding of `GetNodeByID`: first node with the id. -/
def NodeList.GetNodeByID (nl : NodeList) (id : String) : Option Node :=
  nl.Nodes.find? (fun n => n.Id == id)

/-- Embedding of `GetNodesByIdentifier`. -/
def NodeList.GetNodesByIdentifier (nl : NodeList) (t v : String) : List Node :=
  nl.Nodes.filter (fun n => n.Identifiers.any (fun i => i.type == t && i.value == v))

/-- Embedding of `RelateNodeListAtID`, as final receiver state plus optional
error: when `nodeID` is absent from the node index the receiver is returned
untouched with an error; otherwise `nl2`'s root ids are attached under
`nodeID` through a new or first-matching edge (no destination deduplication)
and `nl2`'s unknown nodes are appended verbatim.  No sanitation. -/
def NodeList.RelateNodeListAtID (nl nl2 : NodeList) (nodeID : String) (edgeType : Edge_Type) :
    NodeList × Option String :=
  if nodeID ∈ nodeIds nl then
    let edges :=
      if (nodeID, edgeType) ∈ edgeKeys nl.Edges then
        appendToFirst nl.Edges nodeID edgeType nl2.RootElements
      else
        nl.Edges ++ [⟨edgeType, nodeID, nl2.RootElements⟩]
    let nodes := nl.Nodes ++ nl2.Nodes.filter (fun n => !((nodeIds nl).contains n.Id))
    (⟨nodes, edges, nl.RootElements⟩, none)
  else
    (nl, some ("node with ID " ++ nodeID ++ " not found"))

/-- Embedding of `reconnectOrphanNodes`: every node that is not the origin
of any edge and not already a root (per the snapshots of `indexEdges` and
`indexRootElements`) gets its id appended to the root list. -/
def NodeList.reconnectOrphanNodes (nl : NodeList) : NodeList :=
  { nl with
    RootElements :=
      nl.RootElements ++
        ((nl.Nodes.filter (fun n =>
            !((nl.Edges.map Edge.From).contains n.Id) &&
            !(nl.RootElements.contains n.Id))).map Node.Id) }

/-- Go's `strings.HasPrefix`: `p` is a prefix of `s` (stated on the
character lists so that it evaluates by reduction). -/
def strHasPfx (p s : String) : Bool :=
  p.data.isPrefixOf s.data

/-- Embedding of `GetNodesByPurlType`, with the nil receiver embedded as
`none`: keeps nodes whose purl starts with `pkg:<type>/` or with the quirky
`pkg:/<type>/`, copies edges whose origin survived, reconnects orphans,
sanitizes. -/
def GetNodesByPurlType (onl : Option NodeList) (purlType : String) : NodeList :=
  match onl with
  | none => ⟨[], [], []⟩
  | some nl =>
    let nodes := nl.Nodes.filter (fun n =>
      strHasPfx ("pkg:" ++ purlType ++ "/") n.Purl ||
      strHasPfx ("pkg:/" ++ purlType ++ "/") n.Purl)
    let pre : NodeList :=
      ⟨nodes, nl.Edges.filter (fun e => (nodes.map Node.Id).contains e.From), []⟩
    NodeList.cleanEdges pre.reconnectOrphanNodes

/-- Lexicographic order on character lists, by code point (an executable
rendering of Go's string order for `sort.Strings`). -/
def charListLe : List Char → List Char → Bool
  | [], _ => true
  | _ :: _, [] => false
  | a :: as, b :: bs =>
    if a.val < b.val then true
    else if b.val < a.val then false
    else charListLe as bs

/-- The string order used for sorting. -/
def strLe (a b : String) : Bool :=
  charListLe a.data b.data

/-- Insertion sort on strings (the source sorts with `sort.Strings`; only
the sortedness/permutation behavior matters here). -/
def insertSorted (s : String) : List String → List String
  | [] => [s]
  | x :: xs => if strLe s x then s :: x :: xs else x :: insertSorted s xs

/-- Sort a list of strings ascending. -/
def sortStrings (l : List String) : List String :=
  l.foldr insertSorted []

/-- Modelled from the spec: the edge's flattened comparison string
(`flatString` in the source, not among the analyzed sources): type, origin
and sorted destinations. -/
def Edge.flatString (e : Edge) : String :=
  (match e.type with
   | .UNKNOWN => "0" | .amends => "1" | .ancestor => "2"
   | .contains => "3" | .dependsOn => "4" | .describes => "5") ++
  "(" ++ e.From ++ ")" ++ String.intercalate "," (sortStrings e.To)

/-- Modelled from the spec: the node's flattened field representation
(`flatString` in the source, not among the analyzed sources). -/
def Node.flatString (n : Node) : String :=
  n.Id ++ ":" ++ n.Name ++ ":" ++
    String.intercalate "," (n.Identifiers.map (fun i => i.type ++ "=" ++ i.value))

/-- The id-to-flatString map of a node list, looked up at `id` (Go map built
last-value-wins). -/
def nodeFlatAt (ns : List Node) (id : String) : Option String :=
  ((ns.filter (fun n => n.Id == id)).getLast?).map Node.flatString

/-- Go's `reflect.DeepEqual` of the two `map[string]string` node digests built by
`Equal`. -/
def nodeMapsEq (ns1 ns2 : List Node) : Bool :=
  ns1.all (fun n => nodeFlatAt ns1 n.Id == nodeFlatAt ns2 n.Id) &&
  ns2.all (fun n => nodeFlatAt ns1 n.Id == nodeFlatAt ns2 n.Id)

/-- Embedding of `Equal` on two non-nil lists, as result plus the final
states of both arguments.  `sort.Strings(r1)` sorts the receiver's backing
array in place, so the root slices of both arguments come back sorted once
the three length checks pass; edge slices are never reordered — only
flattened string copies are sorted.  (The source's locals `r1`/`r2` are
inlined.) -/
def NodeList.Equal (nl nl2 : NodeList) : Bool × NodeList × NodeList :=
  if nl.Edges.length ≠ nl2.Edges.length ∨ nl.Nodes.length ≠ nl2.Nodes.length ∨
      nl.RootElements.length ≠ nl2.RootElements.length then
    (false, nl, nl2)
  else if sortStrings nl.RootElements ≠ sortStrings nl2.RootElements then
    (false, { nl with RootElements := sortStrings nl.RootElements },
      { nl2 with RootElements := sortStrings nl2.RootElements })
  else if sortStrings (nl.Edges.map Edge.flatString) ≠
      sortStrings (nl2.Edges.map Edge.flatString) then
    (false, { nl with RootElements := sortStrings nl.RootElements },
      { nl2 with RootElements := sortStrings nl2.RootElements })
  else
    (nodeMapsEq nl.Nodes nl2.Nodes, { nl with RootElements := sortStrings nl.RootElements },
      { nl2 with RootElements := sortStrings nl2.RootElements })

/-- The edge invariants of the spec for a node list: every edge's origin and
destinations exist in the node set, and no two edges share an
`(origin, type)` pair. -/
def EdgeInvariant (nl : NodeList) : Prop :=
  (∀ e ∈ nl.Edges, e.From ∈ nodeIds nl ∧ ∀ d ∈ e.To, d ∈ nodeIds nl) ∧
  nl.Edges.Pairwise (fun a b => ¬(a.From = b.From ∧ a.type = b.type))

instance : DecidablePred EdgeInvariant := fun nl => by
  unfold EdgeInvariant
  infer_instance

/-- Two edge lists carry the same edge set, edges compared as
`(origin, type, destination-set)` triples ignoring order. -/
def EdgeSetEquiv (es1 es2 : List Edge) : Prop :=
  (∀ e ∈ es1, ∃ e' ∈ es2,
    e.From = e'.From ∧ e.type = e'.type ∧ ∀ d : String, d ∈ e.To ↔ d ∈ e'.To) ∧
  (∀ e' ∈ es2, ∃ e ∈ es1,
    e.From = e'.From ∧ e.type = e'.type ∧ ∀ d : String, d ∈ e.To ↔ d ∈ e'.To)

/-! ## The invariant of the `cleanEdges` fold -/

/-- Invariant tying the accumulator of the `cleanEdges` fold to the edges
already processed: pairwise-distinct keys, valid origins, pair-set equal to
the valid-origin pairs of the processed edges, and destination sets
characterized as the valid destinations of the processed edges of the same
key. -/
structure CleanAcc (ids : List String) (processed acc : List Edge) : Prop where
  pairwiseKeys : acc.Pairwise (fun a b => ¬(a.From = b.From ∧ a.type = b.type))
  fromMem : ∀ e ∈ acc, e.From ∈ ids
  reflectPairs : ∀ e ∈ acc, ∃ e0 ∈ processed, e0.From = e.From ∧ e0.type = e.type
  preservePairs : ∀ e0 ∈ processed, e0.From ∈ ids →
    ∃ e ∈ acc, e.From = e0.From ∧ e.type = e0.type
  toChar : ∀ e ∈ acc, ∀ d : String,
    d ∈ e.To ↔ (d ∈ ids ∧ ∃ e0 ∈ processed, e0.From = e.From ∧ e0.type = e.type ∧ d ∈ e0.To)
  toNodup : ∀ e ∈ acc, e.To.Nodup

/-! ## Basic lemmas about destination accumulation -/

theorem mem_addTo {l : List String} {d x : String} :
    x ∈ addTo l d ↔ x ∈ l ∨ x = d := by
  unfold addTo
  split
  · rename_i h
    constructor
    · exact Or.inl
    · rintro (hx | rfl)
      · exact hx
      · exact h
  · simp [List.mem_append]

theorem nodup_addTo {l : List String} {d : String} (h : l.Nodup) : (addTo l d).Nodup := by
  unfold addTo
  split
  · exact h
  · rename_i hd
    refine List.Nodup.append h (List.nodup_singleton d) ?_
    intro a ha hb
    simp only [List.mem_singleton] at hb
    subst hb
    exact hd ha

theorem mem_foldl_addTo {tos : List String} {l : List String} {x : String} :
    x ∈ tos.foldl addTo l ↔ x ∈ l ∨ x ∈ tos := by
  induction tos generalizing l with
  | nil => simp
  | cons t ts ih =>
    rw [List.foldl_cons, ih, mem_addTo]
    simp [or_assoc]

theorem nodup_foldl_addTo {tos l : List String} (h : l.Nodup) :
    (tos.foldl addTo l).Nodup := by
  induction tos generalizing l with
  | nil => exact h
  | cons t ts ih => exact ih (nodup_addTo h)

/-! ## Lemmas about `mergeEdge` -/

theorem mergeEdge_append {acc : List Edge} {f : String} {t : Edge_Type} {tos : List String}
    (h : ∀ e ∈ acc, ¬(e.From = f ∧ e.type = t)) :
    mergeEdge acc f t tos = acc ++ [⟨t, f, tos.foldl addTo []⟩] := by
  induction acc with
  | nil => rfl
  | cons e rest ih =>
    simp only [mergeEdge]
    rw [if_neg (h e (by simp)), ih (fun x hx => h x (by simp [hx]))]
    simp

theorem mergeEdge_update {xs ys : List Edge} {m : Edge} {f : String} {t : Edge_Type}
    {tos : List String}
    (hxs : ∀ e ∈ xs, ¬(e.From = f ∧ e.type = t)) (hm : m.From = f ∧ m.type = t) :
    mergeEdge (xs ++ m :: ys) f t tos =
      xs ++ ⟨m.type, m.From, tos.foldl addTo m.To⟩ :: ys := by
  induction xs with
  | nil =>
    simp only [List.nil_append, mergeEdge]
    rw [if_pos hm]
  | cons x xs ih =>
    simp only [List.cons_append, mergeEdge]
    rw [if_neg (hxs x (by simp))]
    exact congrArg (fun l => x :: l) (ih (fun e he => hxs e (by simp [he])))

theorem cleanStep_acc {ids : List String} {processed acc : List Edge} {e : Edge}
    (h : CleanAcc ids processed acc) :
    CleanAcc ids (processed ++ [e]) (cleanStep ids acc e) := by
  unfold cleanStep
  by_cases hf : e.From ∈ ids
  · rw [if_pos hf]
    by_cases hmatch : ∃ m ∈ acc, m.From = e.From ∧ m.type = e.type
    · -- the key of `e` is already in the accumulator: its unique edge absorbs
      -- the valid destinations of `e`
      obtain ⟨m, hmem, hmf, hmt⟩ := hmatch
      obtain ⟨xs, ys, rfl⟩ := List.append_of_mem hmem
      have hp := h.pairwiseKeys
      rw [List.pairwise_append] at hp
      obtain ⟨hpxs, hpmys, hcross⟩ := hp
      rw [List.pairwise_cons] at hpmys
      obtain ⟨hmys, hpys⟩ := hpmys
      have hxs : ∀ x ∈ xs, ¬(x.From = e.From ∧ x.type = e.type) := by
        intro x hx hcon
        exact hcross x hx m (List.mem_cons_self m ys) ⟨hcon.1.trans hmf.symm, hcon.2.trans hmt.symm⟩
      have hys : ∀ y ∈ ys, ¬(y.From = e.From ∧ y.type = e.type) := by
        intro y hy hcon
        exact hmys y hy ⟨hmf.trans hcon.1.symm, hmt.trans hcon.2.symm⟩
      rw [mergeEdge_update hxs ⟨hmf, hmt⟩]
      have hmemAcc : ∀ {w : Edge}, w ∈ xs → w ∈ xs ++ m :: ys := fun hw =>
        List.mem_append_left _ hw
      have hmemAcc' : ∀ {w : Edge}, w ∈ ys → w ∈ xs ++ m :: ys := fun hw =>
        List.mem_append_right _ (List.mem_cons_of_mem m hw)
      refine ⟨?_, ?_, ?_, ?_, ?_, ?_⟩
      · rw [List.pairwise_append, List.pairwise_cons]
        refine ⟨hpxs, ⟨fun y hy hcon => hmys y hy hcon, hpys⟩, ?_⟩
        intro a ha b hb
        rcases List.mem_cons.mp hb with rfl | hb'
        · exact fun hcon => hcross a ha m (List.mem_cons_self m ys) hcon
        · exact hcross a ha b (List.mem_cons_of_mem m hb')
      · intro e' he'
        rcases List.mem_append.mp he' with h1 | h2
        · exact h.fromMem e' (hmemAcc h1)
        · rcases List.mem_cons.mp h2 with rfl | h3
          · exact h.fromMem m hmem
          · exact h.fromMem e' (hmemAcc' h3)
      · intro e' he'
        rcases List.mem_append.mp he' with h1 | h2
        · obtain ⟨e0, he0, hp0⟩ := h.reflectPairs e' (hmemAcc h1)
          exact ⟨e0, List.mem_append_left _ he0, hp0⟩
        · rcases List.mem_cons.mp h2 with rfl | h3
          · obtain ⟨e0, he0, hp0⟩ := h.reflectPairs m hmem
            exact ⟨e0, List.mem_append_left _ he0, hp0⟩
          · obtain ⟨e0, he0, hp0⟩ := h.reflectPairs e' (hmemAcc' h3)
            exact ⟨e0, List.mem_append_left _ he0, hp0⟩
      · intro e0 he0 hf0
        rcases List.mem_append.mp he0 with h1 | h2
        · obtain ⟨w, hw, hwp⟩ := h.preservePairs e0 h1 hf0
          rcases List.mem_append.mp hw with hw1 | hw2
          · exact ⟨w, List.mem_append_left _ hw1, hwp⟩
          · rcases List.mem_cons.mp hw2 with rfl | hw3
            · exact ⟨_, List.mem_append_right _ (List.mem_cons_self _ ys), hwp⟩
            · exact ⟨w, List.mem_append_right _ (List.mem_cons_of_mem _ hw3), hwp⟩
        · rcases List.mem_singleton.mp h2 with rfl
          exact ⟨_, List.mem_append_right _ (List.mem_cons_self _ ys), hmf, hmt⟩
      · intro e' he' d
        rcases List.mem_append.mp he' with h1 | h2
        · rw [h.toChar e' (hmemAcc h1) d]
          constructor
          · rintro ⟨hd, e0, he0, hp0⟩
            exact ⟨hd, e0, List.mem_append_left _ he0, hp0⟩
          · rintro ⟨hd, e0, he0, hp1, hp2, hp3⟩
            rcases List.mem_append.mp he0 with he0' | he0''
            · exact ⟨hd, e0, he0', hp1, hp2, hp3⟩
            · rcases List.mem_singleton.mp he0'' with rfl
              exact absurd ⟨hp1.symm, hp2.symm⟩ (hxs e' h1)
        · rcases List.mem_cons.mp h2 with rfl | h3
          · show d ∈ (e.To.filter (fun d => ids.contains d)).foldl addTo m.To ↔ _
            rw [mem_foldl_addTo]
            constructor
            · rintro (hd | hd)
              · rw [h.toChar m hmem d] at hd
                obtain ⟨hd1, e0, he0, hp0⟩ := hd
                exact ⟨hd1, e0, List.mem_append_left _ he0, hp0⟩
              · rw [List.mem_filter] at hd
                refine ⟨List.elem_iff.mp hd.2, e, List.mem_append_right _ (List.mem_singleton_self e), hmf.symm, hmt.symm, hd.1⟩
            · rintro ⟨hd, e0, he0, hp1, hp2, hp3⟩
              rcases List.mem_append.mp he0 with he0' | he0''
              · left
                rw [h.toChar m hmem d]
                exact ⟨hd, e0, he0', hp1, hp2, hp3⟩
              · rcases List.mem_singleton.mp he0'' with rfl
                right
                rw [List.mem_filter]
                exact ⟨hp3, List.elem_iff.mpr hd⟩
          · rw [h.toChar e' (hmemAcc' h3) d]
            constructor
            · rintro ⟨hd, e0, he0, hp0⟩
              exact ⟨hd, e0, List.mem_append_left _ he0, hp0⟩
            · rintro ⟨hd, e0, he0, hp1, hp2, hp3⟩
              rcases List.mem_append.mp he0 with he0' | he0''
              · exact ⟨hd, e0, he0', hp1, hp2, hp3⟩
              · rcases List.mem_singleton.mp he0'' with rfl
                exact absurd ⟨hp1.symm, hp2.symm⟩ (hys e' h3)
      · intro e' he'
        rcases List.mem_append.mp he' with h1 | h2
        · exact h.toNodup e' (hmemAcc h1)
        · rcases List.mem_cons.mp h2 with rfl | h3
          · exact nodup_foldl_addTo (h.toNodup m hmem)
          · exact h.toNodup e' (hmemAcc' h3)
    · -- the key of `e` is new: a fresh edge is appended
      push_neg at hmatch
      have hno : ∀ e' ∈ acc, ¬(e'.From = e.From ∧ e'.type = e.type) := by
        intro e' he' hcon
        exact hmatch e' he' hcon.1 hcon.2
      rw [mergeEdge_append hno]
      refine ⟨?_, ?_, ?_, ?_, ?_, ?_⟩
      · rw [List.pairwise_append]
        refine ⟨h.pairwiseKeys, List.pairwise_singleton _ _, ?_⟩
        intro a ha b hb
        rcases List.mem_singleton.mp hb with rfl
        exact fun hcon => hno a ha hcon
      · intro e' he'
        rcases List.mem_append.mp he' with h1 | h2
        · exact h.fromMem e' h1
        · rcases List.mem_singleton.mp h2 with rfl
          exact hf
      · intro e' he'
        rcases List.mem_append.mp he' with h1 | h2
        · obtain ⟨e0, he0, hp0⟩ := h.reflectPairs e' h1
          exact ⟨e0, List.mem_append_left _ he0, hp0⟩
        · rcases List.mem_singleton.mp h2 with rfl
          exact ⟨e, List.mem_append_right _ (List.mem_singleton_self e), rfl, rfl⟩
      · intro e0 he0 hf0
        rcases List.mem_append.mp he0 with h1 | h2
        · obtain ⟨w, hw, hwp⟩ := h.preservePairs e0 h1 hf0
          exact ⟨w, List.mem_append_left _ hw, hwp⟩
        · rcases List.mem_singleton.mp h2 with rfl
          exact ⟨_, List.mem_append_right _ (List.mem_singleton_self _), rfl, rfl⟩
      · intro e' he' d
        rcases List.mem_append.mp he' with h1 | h2
        · rw [h.toChar e' h1 d]
          constructor
          · rintro ⟨hd, e0, he0, hp0⟩
            exact ⟨hd, e0, List.mem_append_left _ he0, hp0⟩
          · rintro ⟨hd, e0, he0, hp1, hp2, hp3⟩
            rcases List.mem_append.mp he0 with he0' | he0''
            · exact ⟨hd, e0, he0', hp1, hp2, hp3⟩
            · rcases List.mem_singleton.mp he0'' with rfl
              exact absurd ⟨hp1.symm, hp2.symm⟩ (hno e' h1)
        · rcases List.mem_singleton.mp h2 with rfl
          show d ∈ (e.To.filter (fun d => ids.contains d)).foldl addTo [] ↔ _
          rw [mem_foldl_addTo, List.mem_filter]
          constructor
          · rintro (hd | ⟨hd1, hd2⟩)
            · exact absurd hd (List.not_mem_nil d)
            · exact ⟨List.elem_iff.mp hd2, e,
                List.mem_append_right _ (List.mem_singleton_self e), rfl, rfl, hd1⟩
          · rintro ⟨hd, e0, he0, hp1, hp2, hp3⟩
            rcases List.mem_append.mp he0 with he0' | he0''
            · exfalso
              have hf0 : e0.From ∈ ids := hp1 ▸ hf
              obtain ⟨w, hw, hwp⟩ := h.preservePairs e0 he0' hf0
              exact hno w hw ⟨hwp.1.trans hp1, hwp.2.trans hp2⟩
            · rcases List.mem_singleton.mp he0'' with rfl
              exact Or.inr ⟨hp3, List.elem_iff.mpr hd⟩
      · intro e' he'
        rcases List.mem_append.mp he' with h1 | h2
        · exact h.toNodup e' h1
        · rcases List.mem_singleton.mp h2 with rfl
          exact nodup_foldl_addTo List.nodup_nil
  · rw [if_neg hf]
    refine ⟨h.pairwiseKeys, h.fromMem, ?_, ?_, ?_, h.toNodup⟩
    · intro e' he'
      obtain ⟨e0, he0, hp0⟩ := h.reflectPairs e' he'
      exact ⟨e0, List.mem_append_left _ he0, hp0⟩
    · intro e0 he0 hf0
      rcases List.mem_append.mp he0 with h1 | h2
      · exact h.preservePairs e0 h1 hf0
      · rcases List.mem_singleton.mp h2 with rfl
        exact absurd hf0 hf
    · intro e' he' d
      rw [h.toChar e' he' d]
      constructor
      · rintro ⟨hd, e0, he0, hp0⟩
        exact ⟨hd, e0, List.mem_append_left _ he0, hp0⟩
      · rintro ⟨hd, e0, he0, hp1, hp2, hp3⟩
        rcases List.mem_append.mp he0 with he0' | he0''
        · exact ⟨hd, e0, he0', hp1, hp2, hp3⟩
        · rcases List.mem_singleton.mp he0'' with rfl
          exact absurd (hp1 ▸ h.fromMem e' he') hf

theorem cleanFold_acc {ids : List String} :
    ∀ (es processed acc : List Edge), CleanAcc ids processed acc →
      CleanAcc ids (processed ++ es) (es.foldl (cleanStep ids) acc)
  | [], processed, acc, h => by simpa using h
  | e :: es, processed, acc, h => by
    have h2 := cleanFold_acc es (processed ++ [e]) (cleanStep ids acc e) (cleanStep_acc h)
    simpa [List.append_assoc] using h2

/-- Sanitation only rewrites the edge list. -/
theorem cleanEdges_Nodes (nl : NodeList) : (nl.cleanEdges).Nodes = nl.Nodes := rfl

/-- Sanitation leaves the root elements alone. -/
theorem cleanEdges_Roots (nl : NodeList) : (nl.cleanEdges).RootElements = nl.RootElements := rfl

/-- The characterization of `cleanEdges`: its edge list is related to the
input edge list by `CleanAcc`. -/
theorem cleanEdges_spec (nl : NodeList) :
    CleanAcc (nodeIds nl) nl.Edges (nl.cleanEdges).Edges := by
  have h0 : CleanAcc (nodeIds nl) [] [] :=
    ⟨List.Pairwise.nil, by simp, by simp, by simp, by simp, by simp⟩
  have h := cleanFold_acc nl.Edges [] [] h0
  simpa using h

/-- In a list with pairwise-distinct `(From, type)` keys, an edge is
determined by its key. -/
theorem eq_of_pairwise_keys {l : List Edge}
    (hp : l.Pairwise (fun a b => ¬(a.From = b.From ∧ a.type = b.type)))
    {a b : Edge} (ha : a ∈ l) (hb : b ∈ l) (hf : a.From = b.From) (ht : a.type = b.type) :
    a = b := by
  induction l with
  | nil => exact absurd ha (List.not_mem_nil a)
  | cons x xs ih =>
    rw [List.pairwise_cons] at hp
    rcases List.mem_cons.mp ha with rfl | ha'
    · rcases List.mem_cons.mp hb with rfl | hb'
      · rfl
      · exact absurd ⟨hf, ht⟩ (hp.1 b hb')
    · rcases List.mem_cons.mp hb with rfl | hb'
      · exact absurd ⟨hf.symm, ht.symm⟩ (hp.1 a ha')
      · exact ih hp.2 ha' hb'

/-- A sanitized list satisfies the edge invariants. -/
theorem EdgeInvariant_cleanEdges (nl : NodeList) : EdgeInvariant nl.cleanEdges := by
  have h := cleanEdges_spec nl
  refine ⟨fun e he => ⟨h.fromMem e he, fun d hd => ((h.toChar e he d).mp hd).1⟩,
    h.pairwiseKeys⟩

/-- The edge invariants ignore the root elements. -/
theorem EdgeInvariant_setRoots {nl : NodeList} (r : List String) (h : EdgeInvariant nl) :
    EdgeInvariant { nl with RootElements := r } := h

/-- C2: for every pair of NodeLists, each list produced by `Add`, `Union`,
`Intersect`, `RemoveNodes` and `GetNodesByPurlType` satisfies the edge
invariants: every edge's origin id and destination ids exist in the result's
node set, and no two edges share an `(origin, type)` pair. -/
theorem C2_results_satisfy_edge_invariants (nl nl2 : NodeList) (ids : List String)
    (purlType : String) :
    EdgeInvariant (nl.Add nl2) ∧ EdgeInvariant (nl.Union nl2) ∧
    EdgeInvariant (nl.Intersect nl2) ∧ EdgeInvariant (nl.RemoveNodes ids) ∧
    EdgeInvariant (GetNodesByPurlType (some nl) purlType) := by
  refine ⟨?_, ?_, ?_, ?_, ?_⟩
  · unfold NodeList.Add
    exact EdgeInvariant_cleanEdges _
  · unfold NodeList.Union
    exact EdgeInvariant_setRoots _ (EdgeInvariant_cleanEdges _)
  · unfold NodeList.Intersect
    exact EdgeInvariant_cleanEdges _
  · unfold NodeList.RemoveNodes
    exact EdgeInvariant_cleanEdges _
  · unfold GetNodesByPurlType
    exact EdgeInvariant_cleanEdges _

/-- C7: edge sanitation is idempotent — for every NodeList, running
`cleanEdges` twice produces the same edge set (edges compared as
`(origin, type, destination-set)` triples, ignoring order) as running it
once. -/
theorem C7_cleanEdges_idempotent (nl : NodeList) :
    EdgeSetEquiv ((nl.cleanEdges).cleanEdges).Edges (nl.cleanEdges).Edges := by
  have h1 := cleanEdges_spec nl
  have h2 := cleanEdges_spec nl.cleanEdges
  constructor
  · intro e he
    obtain ⟨e0, he0, hp1, hp2⟩ := h2.reflectPairs e he
    refine ⟨e0, he0, hp1.symm, hp2.symm, ?_⟩
    intro d
    rw [h2.toChar e he d]
    constructor
    · rintro ⟨hd, e1, he1, hq1, hq2, hq3⟩
      have he10 : e1 = e0 :=
        eq_of_pairwise_keys h1.pairwiseKeys he1 he0 (hq1.trans hp1.symm) (hq2.trans hp2.symm)
      exact he10 ▸ hq3
    · intro hd0
      exact ⟨((h1.toChar e0 he0 d).mp hd0).1, e0, he0, hp1, hp2, hd0⟩
  · intro e0 he0
    obtain ⟨e, he, hp1, hp2⟩ := h2.preservePairs e0 he0 (h1.fromMem e0 he0)
    refine ⟨e, he, hp1, hp2, ?_⟩
    intro d
    rw [h2.toChar e he d]
    constructor
    · rintro ⟨hd, e1, he1, hq1, hq2, hq3⟩
      have he10 : e1 = e0 :=
        eq_of_pairwise_keys h1.pairwiseKeys he1 he0 (hq1.trans hp1) (hq2.trans hp2)
      exact he10 ▸ hq3
    · intro hd0
      exact ⟨((h1.toChar e0 he0 d).mp hd0).1, e0, he0, hp1.symm, hp2.symm, hd0⟩

/-- C10: `cleanEdges` does not delete an edge merely because its destinations
are gone — an edge whose origin exists in the node set is retained, and when
every edge of its `(origin, type)` key has only absent destinations, it is
retained with an empty destination list. -/
theorem C10_clean_keeps_empty_destination_edges (nl : NodeList) (e : Edge)
    (he : e ∈ nl.Edges) (hf : e.From ∈ nodeIds nl)
    (_hdead : ∀ d ∈ e.To, d ∉ nodeIds nl) :
    (∃ e' ∈ (nl.cleanEdges).Edges, e'.From = e.From ∧ e'.type = e.type) ∧
    ((∀ e2 ∈ nl.Edges, e2.From = e.From → e2.type = e.type → ∀ d ∈ e2.To, d ∉ nodeIds nl) →
      ∃ e' ∈ (nl.cleanEdges).Edges, e'.From = e.From ∧ e'.type = e.type ∧ e'.To = []) := by
  have h := cleanEdges_spec nl
  obtain ⟨e', he', hp1, hp2⟩ := h.preservePairs e he hf
  refine ⟨⟨e', he', hp1, hp2⟩, ?_⟩
  intro hall
  refine ⟨e', he', hp1, hp2, ?_⟩
  rw [List.eq_nil_iff_forall_not_mem]
  intro d hd
  rw [h.toChar e' he' d] at hd
  obtain ⟨hdids, e0, he0, hq1, hq2, hq3⟩ := hd
  exact hall e0 he0 (hq1.trans hp1) (hq2.trans hp2) d hq3 hdids

/-- Witness for C10 at a concrete input: node `a`, one edge `a → gone` whose
only destination has no backing node; sanitation keeps the edge with an
empty destination list. -/
theorem C10_clean_keeps_empty_destination_edges_witness :
    (⟨.dependsOn, "a", ["gone"]⟩ : Edge) ∈
        (⟨[⟨"a", "", []⟩], [⟨.dependsOn, "a", ["gone"]⟩], []⟩ : NodeList).Edges ∧
    ∃ e' ∈ ((⟨[⟨"a", "", []⟩], [⟨.dependsOn, "a", ["gone"]⟩], []⟩ : NodeList).cleanEdges).Edges,
      e'.From = "a" ∧ e'.type = .dependsOn ∧ e'.To = [] := by
  refine ⟨by decide, ?_⟩
  have h := (C10_clean_keeps_empty_destination_edges
    ⟨[⟨"a", "", []⟩], [⟨.dependsOn, "a", ["gone"]⟩], []⟩
    ⟨.dependsOn, "a", ["gone"]⟩ (by decide) (by decide) (by decide)).2 (by decide)
  exact h

/-- C1: at the failing input, `Add` leaves the matching node's unset name
unfilled — the source fetches `n, ok := existingNodes[id]` and calls
`existingNodes[id].Augment(n)`, augmenting the receiver's node with itself —
whereas the claimed gap-fill from `nl2`'s node of the same id would have
produced the name "x". -/
theorem C1_add_does_not_gapfill_from_other :
    ((⟨[⟨"a", "", []⟩], [], []⟩ : NodeList).Add ⟨[⟨"a", "x", []⟩], [], []⟩).Nodes =
      [⟨"a", "", []⟩] ∧
    Node.Augment ⟨"a", "", []⟩ ⟨"a", "x", []⟩ = ⟨"a", "x", []⟩ := by
  decide

/-- C4 counterexample: on the specified scenario, `Intersect` does not yield
an empty edge list — the edge `b → c` survives as an edge of origin `b` with
its dangling destination dropped. -/
theorem C4_counterexample_intersect_edges_not_empty :
    ((⟨[⟨"a", "aye", []⟩, ⟨"b", "bee", []⟩], [⟨.dependsOn, "a", ["b"]⟩], ["a"]⟩ :
        NodeList).Intersect
      ⟨[⟨"b", "bee2", []⟩, ⟨"c", "sea", []⟩], [⟨.dependsOn, "b", ["c"]⟩], ["b"]⟩).Edges ≠ [] := by
  decide

/-- C4 amended: on the scenario `A = {nodes a (root), b; edge a→b dependsOn}`,
`B = {nodes b, c; edge b→c dependsOn; root b}`: `Union` yields exactly nodes
`{a, b, c}`, edges `{a→b, b→c}` and roots `{a, b}`; `Intersect` yields
exactly the overlay-merged node `b`, roots `{b}`, and one edge of origin `b`
and type `dependsOn` with an empty destination list. -/
theorem C4_amended_scenario :
    ((⟨[⟨"a", "aye", []⟩, ⟨"b", "bee", []⟩], [⟨.dependsOn, "a", ["b"]⟩], ["a"]⟩ :
        NodeList).Union
      ⟨[⟨"b", "bee2", []⟩, ⟨"c", "sea", []⟩], [⟨.dependsOn, "b", ["c"]⟩], ["b"]⟩ =
      ⟨[⟨"a", "aye", []⟩, ⟨"b", "bee2", []⟩, ⟨"c", "sea", []⟩],
        [⟨.dependsOn, "a", ["b"]⟩, ⟨.dependsOn, "b", ["c"]⟩], ["a", "b"]⟩) ∧
    ((⟨[⟨"a", "aye", []⟩, ⟨"b", "bee", []⟩], [⟨.dependsOn, "a", ["b"]⟩], ["a"]⟩ :
        NodeList).Intersect
      ⟨[⟨"b", "bee2", []⟩, ⟨"c", "sea", []⟩], [⟨.dependsOn, "b", ["c"]⟩], ["b"]⟩ =
      ⟨[⟨"b", "bee2", []⟩], [⟨.dependsOn, "b", []⟩], ["b"]⟩) := by
  decide

/-- C5 counterexample: `AddEdge` does not end with a sanitation pass — it
appends a dangling edge verbatim, leaving a state violating the edge
invariants. -/
theorem C5_counterexample_AddEdge_no_sanitation :
    ¬ EdgeInvariant ((⟨[], [], []⟩ : NodeList).AddEdge ⟨.dependsOn, "a", ["b"]⟩) := by
  decide

/-- C5 amended: `Add`, `Union`, `Intersect`, `RemoveNodes` and
`GetNodesByPurlType` end with an edge-sanitation pass and re-establish the
edge invariants, but `AddEdge`, `AddNode` and `RelateNodeListAtID` do not
sanitize and can leave states violating them. -/
theorem C5_amended_only_five_operations_sanitize (nl nl2 : NodeList) (ids : List String)
    (purlType : String) :
    (EdgeInvariant (nl.Add nl2) ∧ EdgeInvariant (nl.Union nl2) ∧
     EdgeInvariant (nl.Intersect nl2) ∧ EdgeInvariant (nl.RemoveNodes ids) ∧
     EdgeInvariant (GetNodesByPurlType (some nl) purlType)) ∧
    ¬ EdgeInvariant ((⟨[], [], []⟩ : NodeList).AddEdge ⟨.dependsOn, "a", ["b"]⟩) ∧
    ¬ EdgeInvariant ((⟨[], [⟨.dependsOn, "a", ["b"]⟩], []⟩ : NodeList).AddNode ⟨"z", "", []⟩) ∧
    ¬ EdgeInvariant (((⟨[⟨"a", "", []⟩], [], []⟩ : NodeList).RelateNodeListAtID
        ⟨[], [], ["z"]⟩ "a" .dependsOn).1) := by
  refine ⟨⟨?_, ?_, ?_, ?_, ?_⟩, by decide, by decide, by decide⟩
  · unfold NodeList.Add
    exact EdgeInvariant_cleanEdges _
  · unfold NodeList.Union
    exact EdgeInvariant_setRoots _ (EdgeInvariant_cleanEdges _)
  · unfold NodeList.Intersect
    exact EdgeInvariant_cleanEdges _
  · unfold NodeList.RemoveNodes
    exact EdgeInvariant_cleanEdges _
  · unfold GetNodesByPurlType
    exact EdgeInvariant_cleanEdges _

/-- C6: `RelateNodeListAtID` returns an error exactly when the anchor id is
not the id of any node of the receiver, and in that case the receiver is
left unchanged.  (All other operations are total functions of the embedding:
they return no error by type.) -/
theorem C6_relate_error_iff_missing_anchor (nl nl2 : NodeList) (nodeID : String)
    (edgeType : Edge_Type) :
    ((nl.RelateNodeListAtID nl2 nodeID edgeType).2.isSome ↔ nodeID ∉ nodeIds nl) ∧
    (nodeID ∉ nodeIds nl → (nl.RelateNodeListAtID nl2 nodeID edgeType).1 = nl) := by
  unfold NodeList.RelateNodeListAtID
  by_cases h : nodeID ∈ nodeIds nl
  · rw [if_pos h]
    simp [h]
  · rw [if_neg h]
    simp [h]

/-- C9: at the failing input — a receiver holding one node with the quirky
purl "pkg:/deb/foo" — `GetNodesByPurlType` applied to the empty purl type
returns that node (the quirk pattern `pkg:/<type>/` degenerates to the mere
prefix `pkg:/`), not the blank NodeList promised by the function's own
documentation; a nil receiver does yield the blank NodeList. -/
theorem C9_blank_purl_type_not_empty :
    (GetNodesByPurlType (some ⟨[⟨"n1", "foo", [⟨"purl", "pkg:/deb/foo"⟩]⟩], [], []⟩) "").Nodes =
      [⟨"n1", "foo", [⟨"purl", "pkg:/deb/foo"⟩]⟩] ∧
    GetNodesByPurlType none "" = ⟨[], [], []⟩ := by
  decide

/-! ## The edge loop of `Intersect` at the level of `(origin, type)` keys -/

theorem edgeKeys_widenFirstSnap (es : List Edge) (f : String) (t : Edge_Type)
    (tos : List String) :
    edgeKeys (widenFirstSnap es f t tos) = edgeKeys es := by
  induction es with
  | nil => rfl
  | cons e rest ih =>
    unfold widenFirstSnap
    split
    · rfl
    · show (e.From, e.type) :: edgeKeys (widenFirstSnap rest f t tos) = _
      rw [ih]
      rfl

theorem mem_edgeKeys_intersectEdgeStep {es : List Edge} {e2 : Edge}
    {k : String × Edge_Type} :
    k ∈ edgeKeys (intersectEdgeStep es e2) ↔ k ∈ edgeKeys es ∨ k = (e2.From, e2.type) := by
  unfold intersectEdgeStep
  split
  · rename_i hmem
    rw [edgeKeys_widenFirstSnap]
    constructor
    · exact Or.inl
    · rintro (h | rfl)
      · exact h
      · exact hmem
  · simp [edgeKeys, List.mem_append]

theorem mem_edgeKeys_intersectEdges {es2 es : List Edge} {k : String × Edge_Type} :
    k ∈ edgeKeys (es2.foldl intersectEdgeStep es) ↔
      k ∈ edgeKeys es ∨ k ∈ edgeKeys es2 := by
  induction es2 generalizing es with
  | nil => simp [edgeKeys]
  | cons e es2 ih =>
    rw [List.foldl_cons, ih, mem_edgeKeys_intersectEdgeStep]
    simp [edgeKeys, or_assoc]

/-- The key of every edge of a list is among the list's keys. -/
theorem key_mem_edgeKeys {es : List Edge} {e : Edge} (he : e ∈ es) :
    (e.From, e.type) ∈ edgeKeys es :=
  List.mem_map.mpr ⟨e, he, rfl⟩

/-- The pre-sanitation state built by `Intersect` (nodes, edges and roots
before the trailing `cleanEdges`). -/
theorem Intersect_eq_clean (A B : NodeList) :
    A.Intersect B = NodeList.cleanEdges
      ⟨((lastPerId A.Nodes).foldl (intersectNodeStep A B) ([], [])).1,
        B.Edges.foldl intersectEdgeStep A.Edges,
        ((lastPerId A.Nodes).foldl (intersectNodeStep A B) ([], [])).2⟩ := rfl

/-- C3 counterexample: with `A = {nodes a, b; no edges}` and
`B = {nodes a, b; edge a→b dependsOn}`, the pair `(a, dependsOn)` is present
only in `B`'s edges, yet `Intersect` yields an edge with that pair. -/
theorem C3_counterexample_edge_only_in_other_survives :
    (⟨[⟨"a", "", []⟩, ⟨"b", "", []⟩], [], []⟩ : NodeList).Edges = [] ∧
    ∃ e' ∈ ((⟨[⟨"a", "", []⟩, ⟨"b", "", []⟩], [], []⟩ : NodeList).Intersect
        ⟨[⟨"a", "", []⟩, ⟨"b", "", []⟩], [⟨.dependsOn, "a", ["b"]⟩], []⟩).Edges,
      e'.From = "a" ∧ e'.type = .dependsOn := by
  decide

/-- C3 amended: `Intersect` copies the receiver's edges and widens matching
`(origin, type)` edges with `other`'s destinations, but an `(origin, type)`
pair present only in `other` is appended as a copy as well; the trailing
sanitation then keeps an edge exactly when its origin is in the intersected
node set — so every result edge's pair stems from `A`'s or `B`'s edges, and
every edge of `B` whose origin is a node of the result yields a result edge
of the same pair, whether or not the pair occurs in `A`. -/
theorem C3_amended_intersect_edges (A B : NodeList) (e : Edge) (he : e ∈ B.Edges)
    (hf : e.From ∈ nodeIds (A.Intersect B)) :
    (∀ e' ∈ (A.Intersect B).Edges,
      (e'.From, e'.type) ∈ edgeKeys A.Edges ∨ (e'.From, e'.type) ∈ edgeKeys B.Edges) ∧
    ∃ e' ∈ (A.Intersect B).Edges, e'.From = e.From ∧ e'.type = e.type := by
  rw [Intersect_eq_clean] at hf ⊢
  have h := cleanEdges_spec
    ⟨((lastPerId A.Nodes).foldl (intersectNodeStep A B) ([], [])).1,
      B.Edges.foldl intersectEdgeStep A.Edges,
      ((lastPerId A.Nodes).foldl (intersectNodeStep A B) ([], [])).2⟩
  constructor
  · intro e' he'
    obtain ⟨e0, he0, hp1, hp2⟩ := h.reflectPairs e' he'
    have hk : (e'.From, e'.type) ∈ edgeKeys (B.Edges.foldl intersectEdgeStep A.Edges) := by
      have := key_mem_edgeKeys he0
      rw [hp1, hp2] at this
      exact this
    exact mem_edgeKeys_intersectEdges.mp hk
  · have hk : (e.From, e.type) ∈ edgeKeys (B.Edges.foldl intersectEdgeStep A.Edges) :=
      mem_edgeKeys_intersectEdges.mpr (Or.inr (key_mem_edgeKeys he))
    obtain ⟨e0, he0, hk0⟩ := List.mem_map.mp hk
    have hq1 : e0.From = e.From := congrArg Prod.fst hk0
    have hq2 : e0.type = e.type := congrArg Prod.snd hk0
    obtain ⟨e', he', hr1, hr2⟩ := h.preservePairs e0 he0 (by rw [hq1]; exact hf)
    exact ⟨e', he', hr1.trans hq1, hr2.trans hq2⟩

/-- Witness for C3's amended theorem at a concrete input: `B`'s edge
`a → b` (a pair absent from `A`'s empty edge list) yields a result edge. -/
theorem C3_amended_intersect_edges_witness :
    (⟨.dependsOn, "a", ["b"]⟩ : Edge) ∈
        (⟨[⟨"a", "", []⟩, ⟨"b", "", []⟩], [⟨.dependsOn, "a", ["b"]⟩], []⟩ : NodeList).Edges ∧
    ∃ e' ∈ ((⟨[⟨"a", "", []⟩, ⟨"b", "", []⟩], [], []⟩ : NodeList).Intersect
        ⟨[⟨"a", "", []⟩, ⟨"b", "", []⟩], [⟨.dependsOn, "a", ["b"]⟩], []⟩).Edges,
      e'.From = "a" ∧ e'.type = Edge_Type.dependsOn := by
  refine ⟨by decide, ?_⟩
  have h := (C3_amended_intersect_edges
    ⟨[⟨"a", "", []⟩, ⟨"b", "", []⟩], [], []⟩
    ⟨[⟨"a", "", []⟩, ⟨"b", "", []⟩], [⟨.dependsOn, "a", ["b"]⟩], []⟩
    ⟨.dependsOn, "a", ["b"]⟩ (by decide) (by decide)).2
  exact h

/-- C8 counterexample: `Equal` on two equal-length lists leaves the edge
slices untouched — the receiver's edges come back in their original order,
which is not sorted (under the flattened-string order the code sorts copies
by), so the edge slices are not "sorted in place". -/
theorem C8_counterexample_edges_not_sorted :
    ((⟨[], [⟨.dependsOn, "a", []⟩, ⟨.amends, "b", []⟩], ["r2", "r1"]⟩ : NodeList).Equal
        ⟨[], [⟨.amends, "b", []⟩, ⟨.dependsOn, "a", []⟩], ["r1", "r2"]⟩).2.1.Edges =
      [⟨.dependsOn, "a", []⟩, ⟨.amends, "b", []⟩] ∧
    ¬ (((⟨[], [⟨.dependsOn, "a", []⟩, ⟨.amends, "b", []⟩], ["r2", "r1"]⟩ : NodeList).Equal
        ⟨[], [⟨.amends, "b", []⟩, ⟨.dependsOn, "a", []⟩], ["r1", "r2"]⟩).2.1.Edges.map
          Edge.flatString).Pairwise (fun a b => strLe a b = true) := by
  decide

/-- C8 amended: `Equal` never touches the node or edge slices of either
argument; when the three length checks pass it sorts both arguments' root-id
slices in place, and when a length differs it mutates nothing at all. -/
theorem C8_amended_equal_mutation (nl nl2 : NodeList) :
    ((nl.Equal nl2).2.1.Nodes = nl.Nodes ∧ (nl.Equal nl2).2.1.Edges = nl.Edges ∧
     (nl.Equal nl2).2.2.Nodes = nl2.Nodes ∧ (nl.Equal nl2).2.2.Edges = nl2.Edges) ∧
    (nl.Edges.length = nl2.Edges.length ∧ nl.Nodes.length = nl2.Nodes.length ∧
        nl.RootElements.length = nl2.RootElements.length →
      (nl.Equal nl2).2.1.RootElements = sortStrings nl.RootElements ∧
      (nl.Equal nl2).2.2.RootElements = sortStrings nl2.RootElements) ∧
    (¬(nl.Edges.length = nl2.Edges.length ∧ nl.Nodes.length = nl2.Nodes.length ∧
        nl.RootElements.length = nl2.RootElements.length) →
      (nl.Equal nl2).2.1 = nl ∧ (nl.Equal nl2).2.2 = nl2) := by
  unfold NodeList.Equal
  by_cases hlen : nl.Edges.length ≠ nl2.Edges.length ∨ nl.Nodes.length ≠ nl2.Nodes.length ∨
      nl.RootElements.length ≠ nl2.RootElements.length
  · rw [if_pos hlen]
    refine ⟨⟨rfl, rfl, rfl, rfl⟩, ?_, fun _ => ⟨rfl, rfl⟩⟩
    intro hc
    exact absurd hc (by tauto)
  · rw [if_neg hlen]
    push_neg at hlen
    refine ⟨⟨?_, ?_, ?_, ?_⟩, fun _ => ⟨?_, ?_⟩, ?_⟩
    · split
      · rfl
      · split <;> rfl
    · split
      · rfl
      · split <;> rfl
    · split
      · rfl
      · split <;> rfl
    · split
      · rfl
      · split <;> rfl
    · split
      · rfl
      · split <;> rfl
    · split
      · rfl
      · split <;> rfl
    · intro hc
      exact absurd ⟨hlen.1, hlen.2.1, hlen.2.2⟩ hc
